import Mathlib

/-!
Shallow embedding of the BigInt type from src/src/bigint.rs: an
arbitrary-precision non-negative decimal integer stored as a little-endian
list of base-10 digits, with construction, addition and multiplication.

Rust u8 digit values are embedded as Nat.  The constructor BigInt::new
aborts the process via a panic when it sees a digit above 9; failure modes
are made explicit with the Failure type, distinguishing a process abort
(the Rust panic) from a recoverable error value, so that statements about
the failure mode of the code can be settled.  Checked variants of the
arithmetic loops (addLoopChk, mulDigitLoopChk, multiplyChk) guard every
intermediate u8 operation against exceeding 255, modelling the fixed-width
digit type; theorems relate them to the plain versions.
-/

structure BigInt where
  digits : List Nat
deriving DecidableEq

inductive ErrorKind where
  | invalidDigit
deriving DecidableEq

/-- A failure is either a process abort (the Rust panic with its message) or
a recoverable error value surfaced to the caller. -/
inductive Failure where
  | processAbort (msg : String)
  | recoverable (err : ErrorKind)
deriving DecidableEq

instance {ε α : Type} [DecidableEq ε] [DecidableEq α] : DecidableEq (Except ε α) := fun a b =>
  match a, b with
  | .error e1, .error e2 =>
    if h : e1 = e2 then .isTrue (h ▸ rfl) else .isFalse (fun hh => h (Except.error.inj hh))
  | .ok a1, .ok a2 =>
    if h : a1 = a2 then .isTrue (h ▸ rfl) else .isFalse (fun hh => h (Except.ok.inj hh))
  | .error _, .ok _ => .isFalse Except.noConfusion
  | .ok _, .error _ => .isFalse Except.noConfusion

/-- The trailing-zero stripping loop of BigInt::new: while the list is
nonempty and its last element is 0, pop the last element. -/
def stripTrailing (l : List Nat) : List Nat :=
  (l.reverse.dropWhile (fun d => d == 0)).reverse

/-- The part of BigInt::new after the digit-range check: strip
non-essential most-significant zeros, and represent the empty result as
the single digit 0. -/
def mkCanon (l : List Nat) : BigInt :=
  let d := stripTrailing l
  ⟨if d.length > 0 then d else [0]⟩

/-- BigInt::new: collects the digits, aborts (Rust panic) when any digit
exceeds 9, then canonicalizes. -/
def BigInt.new (it : List Nat) : Except Failure BigInt :=
  if it.any (fun d => d > 9) then
    Except.error (Failure.processAbort "only digits 0 through 9 allowed")
  else
    Except.ok (mkCanon it)

/-- The carry-exhausting loop shared by add and multiply: while carry is
positive, emit carry mod 10 and divide the carry by 10. -/
def flushCarry (carry : Nat) : List Nat :=
  if h : carry > 0 then
    carry % 10 :: flushCarry (carry / 10)
  else
    []
decreasing_by exact Nat.div_lt_self h (by omega)

/-- The indexed loop of BigInt::add: for i in 0..maxLen read digit i of
each operand (0 when out of range), emit the sum mod 10 and carry the
quotient; afterwards flush the remaining carry. -/
def addLoop (a b : List Nat) (i maxLen carry : Nat) : List Nat :=
  if i < maxLen then
    let temp := carry + a.getD i 0 + b.getD i 0
    (temp % 10) :: addLoop a b (i + 1) maxLen (temp / 10)
  else
    flushCarry carry
termination_by maxLen - i

/-- BigInt::add: digit-by-digit addition with carry, padding the shorter
operand with zeros; the result struct is built directly, not through
BigInt::new. -/
def BigInt.add (x y : BigInt) : BigInt :=
  ⟨addLoop x.digits y.digits 0 (Nat.max x.digits.length y.digits.length) 0⟩

/-- The inner loop of BigInt::multiply: multiply the single digit a by
every digit of the other operand, carrying, then flush the carry. -/
def mulDigitLoop (a : Nat) : List Nat → Nat → List Nat
  | [], carry => flushCarry carry
  | b :: bs, carry => ((a * b + carry) % 10) :: mulDigitLoop a bs ((a * b + carry) / 10)

/-- One partial product of BigInt::multiply: numZeros least-significant
zero digits (the place-value shift), then the single-digit product. -/
def singleDigitProduct (numZeros a : Nat) (bs : List Nat) : List Nat :=
  List.replicate numZeros 0 ++ mulDigitLoop a bs 0

/-- BigInt::multiply: build all shifted partial products from the
enumerated digits of the left operand, then accumulate them with add,
starting from BigInt::new of the empty sequence and passing every partial
product through BigInt::new (whose digit check may in principle abort). -/
def BigInt.multiply (x y : BigInt) : Except Failure BigInt := do
  let products := x.digits.enum.map (fun p => singleDigitProduct p.1 p.2 y.digits)
  let init ← BigInt.new []
  products.foldlM (fun r prod => do
    let b ← BigInt.new prod
    pure (r.add b)) init

/-- Value denoted by a little-endian digit list. -/
def listVal : List Nat → Nat
  | [] => 0
  | d :: ds => d + 10 * listVal ds

/-- Value denoted by a BigInt. -/
def BigInt.val (b : BigInt) : Nat := listVal b.digits

/-- Canonical form of a digit list (spec Invariants 1 and 2): every digit
is at most 9, the list is nonempty, and the most-significant digit is
nonzero except for the zero value represented as the single digit 0. -/
def canonical (l : List Nat) : Prop :=
  (∀ d ∈ l, d ≤ 9) ∧ l ≠ [] ∧ (l.getLast? = some 0 → l = [0])

instance (l : List Nat) : Decidable (canonical l) := by
  unfold canonical
  exact inferInstance

/-- Well-formedness of a BigInt: its digit list is canonical. -/
def wf (b : BigInt) : Prop := canonical b.digits

instance (b : BigInt) : Decidable (wf b) := by
  unfold wf
  exact inferInstance

/-- Guard for one u8 operation: the result must fit in 8 bits. -/
def u8chk (n : Nat) : Option Nat :=
  if n ≤ 255 then some n else none

/-- Checked variant of addLoop: each u8 addition is guarded. -/
def addLoopChk (a b : List Nat) (i maxLen carry : Nat) : Option (List Nat) :=
  if i < maxLen then
    match u8chk (carry + a.getD i 0) with
    | none => none
    | some t1 =>
      match u8chk (t1 + b.getD i 0) with
      | none => none
      | some temp =>
        match addLoopChk a b (i + 1) maxLen (temp / 10) with
        | none => none
        | some rest => some ((temp % 10) :: rest)
  else
    some (flushCarry carry)
termination_by maxLen - i

/-- Checked variant of BigInt::add. -/
def BigInt.addChk (x y : BigInt) : Option BigInt :=
  match addLoopChk x.digits y.digits 0 (Nat.max x.digits.length y.digits.length) 0 with
  | none => none
  | some d => some ⟨d⟩

/-- Checked variant of mulDigitLoop: the u8 multiplication and the u8
addition of the carry are guarded. -/
def mulDigitLoopChk (a : Nat) : List Nat → Nat → Option (List Nat)
  | [], carry => some (flushCarry carry)
  | b :: bs, carry =>
    match u8chk (a * b) with
    | none => none
    | some m =>
      match u8chk (m + carry) with
      | none => none
      | some p =>
        match mulDigitLoopChk a bs (p / 10) with
        | none => none
        | some rest => some ((p % 10) :: rest)

/-- Checked construction of the list of shifted partial products from the
enumerated digit pairs of the left operand. -/
def sdProductsChk (pairs : List (Nat × Nat)) (bs : List Nat) :
    Option (List (List Nat)) :=
  match pairs with
  | [] => some []
  | p :: ps =>
    match mulDigitLoopChk p.2 bs 0 with
    | none => none
    | some tail =>
      match sdProductsChk ps bs with
      | none => none
      | some rest => some ((List.replicate p.1 0 ++ tail) :: rest)

/-- Checked accumulation of the partial products with add, each one passed
through the digit check of BigInt::new. -/
def foldChk (ps : List (List Nat)) (acc : BigInt) : Option BigInt :=
  match ps with
  | [] => some acc
  | p :: rest =>
    match (BigInt.new p).toOption with
    | none => none
    | some b =>
      match acc.addChk b with
      | none => none
      | some acc2 => foldChk rest acc2

/-- Checked variant of BigInt::multiply: every intermediate u8 operation
is guarded and every BigInt::new call may fail on an out-of-range digit. -/
def BigInt.multiplyChk (x y : BigInt) : Option BigInt :=
  match sdProductsChk x.digits.enum y.digits with
  | none => none
  | some products =>
    match (BigInt.new []).toOption with
    | none => none
    | some init => foldChk products init

/-- Structural companion of addLoop, recursing on both digit lists at once
with explicit zero padding for the exhausted operand. -/
def addAux : List Nat → List Nat → Nat → List Nat
  | [], [], c => flushCarry c
  | x :: xs, [], c => ((c + x + 0) % 10) :: addAux xs [] ((c + x + 0) / 10)
  | [], y :: ys, c => ((c + 0 + y) % 10) :: addAux [] ys ((c + 0 + y) / 10)
  | x :: xs, y :: ys, c => ((c + x + y) % 10) :: addAux xs ys ((c + x + y) / 10)


/-- The least-significant-first canonical decimal digit sequence of a
non-negative integer: the single digit 0 for zero, otherwise its base-10
digit expansion. -/
def natToDigits (n : Nat) : List Nat :=
  if n = 0 then [0] else Nat.digits 10 n

/-! ### Evaluation helpers: a structural companion of the indexed add loop -/

theorem flushCarry_of_pos {c : Nat} (h : 0 < c) :
    flushCarry c = c % 10 :: flushCarry (c / 10) := by
  rw [flushCarry]
  simp [h]

theorem flushCarry_zero : flushCarry 0 = [] := by
  rw [flushCarry]
  simp

theorem addLoop_eq_addAux (a b : List Nat) :
    ∀ (k i c : Nat), Nat.max a.length b.length - i ≤ k →
    addLoop a b i (Nat.max a.length b.length) c = addAux (a.drop i) (b.drop i) c := by
  have hmaxa : a.length ≤ Nat.max a.length b.length := Nat.le_max_left _ _
  have hmaxb : b.length ≤ Nat.max a.length b.length := Nat.le_max_right _ _
  intro k
  induction k with
  | zero =>
    intro i c hk
    have h : ¬ i < Nat.max a.length b.length := by omega
    rw [addLoop]
    simp only [h, if_false]
    have ha : a.length ≤ i := by omega
    have hb : b.length ≤ i := by omega
    rw [List.drop_eq_nil_of_le ha, List.drop_eq_nil_of_le hb, addAux]
  | succ k ih =>
    intro i c hk
    by_cases h : i < Nat.max a.length b.length
    · rw [addLoop]
      simp only [h, if_true]
      rw [ih (i + 1) _ (by omega)]
      rcases Nat.lt_or_ge i a.length with ha | ha
      · rcases Nat.lt_or_ge i b.length with hb | hb
        · rw [List.drop_eq_getElem_cons ha, List.drop_eq_getElem_cons hb, addAux,
            List.getD_eq_getElem _ _ ha, List.getD_eq_getElem _ _ hb]
        · rw [List.drop_eq_getElem_cons ha, List.drop_eq_nil_of_le hb,
            List.drop_eq_nil_of_le (Nat.le_succ_of_le hb), addAux,
            List.getD_eq_getElem _ _ ha, List.getD_eq_default _ _ hb]
      · rcases Nat.lt_or_ge i b.length with hb | hb
        · rw [List.drop_eq_nil_of_le ha, List.drop_eq_nil_of_le (Nat.le_succ_of_le ha),
            List.drop_eq_getElem_cons hb, addAux,
            List.getD_eq_default _ _ ha, List.getD_eq_getElem _ _ hb]
        · exfalso
          have hcon : Nat.max a.length b.length ≤ i := Nat.max_le.mpr ⟨ha, hb⟩
          omega
    · rw [addLoop]
      simp only [h, if_false]
      have ha : a.length ≤ i := by omega
      have hb : b.length ≤ i := by omega
      rw [List.drop_eq_nil_of_le ha, List.drop_eq_nil_of_le hb, addAux]

theorem add_eq_addAux (x y : BigInt) :
    (x.add y).digits = addAux x.digits y.digits 0 := by
  show addLoop x.digits y.digits 0 (Nat.max x.digits.length y.digits.length) 0 = _
  rw [addLoop_eq_addAux x.digits y.digits _ 0 0 (Nat.le_refl _),
    List.drop_zero, List.drop_zero]

/-! ### Values of the digit lists produced by the loops -/

theorem nat_max_succ (p q : Nat) : Nat.max (p + 1) (q + 1) = Nat.max p q + 1 :=
  Nat.succ_max_succ p q

theorem listVal_flushCarry (c : Nat) : listVal (flushCarry c) = c := by
  induction c using flushCarry.induct with
  | case1 c h ih =>
    rw [flushCarry_of_pos h, listVal, ih, Nat.mod_add_div]
  | case2 c h =>
    have hc : c = 0 := by omega
    subst hc
    rw [flushCarry_zero, listVal]

theorem flushCarry_digits_le (c : Nat) : ∀ d ∈ flushCarry c, d ≤ 9 := by
  induction c using flushCarry.induct with
  | case1 c h ih =>
    rw [flushCarry_of_pos h]
    intro d hd
    rcases List.mem_cons.mp hd with h1 | h1
    · subst h1
      exact Nat.le_of_lt_succ (Nat.mod_lt _ (by omega))
    · exact ih d h1
  | case2 c h =>
    have hc : c = 0 := by omega
    subst hc
    rw [flushCarry_zero]
    intro d hd
    exact absurd hd (List.not_mem_nil d)

theorem listVal_addAux (xs ys : List Nat) (c : Nat) :
    listVal (addAux xs ys c) = c + listVal xs + listVal ys := by
  induction xs, ys, c using addAux.induct with
  | case1 c =>
    rw [addAux, listVal_flushCarry]
    simp only [listVal]
    omega
  | case2 x xs c ih =>
    rw [addAux]
    simp only [listVal] at ih ⊢
    rw [ih]
    have := Nat.mod_add_div (c + x + 0) 10
    omega
  | case3 y ys c ih =>
    rw [addAux]
    simp only [listVal] at ih ⊢
    rw [ih]
    have := Nat.mod_add_div (c + 0 + y) 10
    omega
  | case4 x xs y ys c ih =>
    rw [addAux]
    simp only [listVal] at ih ⊢
    rw [ih]
    have := Nat.mod_add_div (c + x + y) 10
    omega

theorem addAux_digits_le (xs ys : List Nat) (c : Nat) :
    ∀ d ∈ addAux xs ys c, d ≤ 9 := by
  induction xs, ys, c using addAux.induct with
  | case1 c =>
    rw [addAux]
    exact flushCarry_digits_le c
  | case2 x xs c ih =>
    rw [addAux]
    intro d hd
    rcases List.mem_cons.mp hd with h1 | h1
    · subst h1
      exact Nat.le_of_lt_succ (Nat.mod_lt _ (by omega))
    · exact ih d h1
  | case3 y ys c ih =>
    rw [addAux]
    intro d hd
    rcases List.mem_cons.mp hd with h1 | h1
    · subst h1
      exact Nat.le_of_lt_succ (Nat.mod_lt _ (by omega))
    · exact ih d h1
  | case4 x xs y ys c ih =>
    rw [addAux]
    intro d hd
    rcases List.mem_cons.mp hd with h1 | h1
    · subst h1
      exact Nat.le_of_lt_succ (Nat.mod_lt _ (by omega))
    · exact ih d h1

/-! ### Values, digit bounds and canonical forms of digit lists -/

theorem listVal_append (xs ys : List Nat) :
    listVal (xs ++ ys) = listVal xs + 10 ^ xs.length * listVal ys := by
  induction xs with
  | nil => simp [listVal]
  | cons x xs ih =>
    simp only [List.cons_append, listVal, List.append_eq]
    rw [ih, List.length_cons, pow_succ]
    ring

theorem listVal_replicate_zero (k : Nat) : listVal (List.replicate k 0) = 0 := by
  induction k with
  | zero => rfl
  | succ k ih => simp [List.replicate, listVal, ih]

theorem listVal_lt (l : List Nat) (h : ∀ d ∈ l, d ≤ 9) :
    listVal l < 10 ^ l.length := by
  induction l with
  | nil => simp [listVal]
  | cons d ds ih =>
    have hd : d ≤ 9 := h d (List.mem_cons_self _ _)
    have hds := ih (fun e he => h e (List.mem_cons_of_mem _ he))
    simp only [listVal, List.length_cons, pow_succ]
    omega

theorem listVal_getLast_ge (l : List Nat) (h : l ≠ []) (h0 : l.getLast? ≠ some 0) :
    10 ^ (l.length - 1) ≤ listVal l := by
  have hdec : l.dropLast ++ [l.getLast h] = l := List.dropLast_append_getLast h
  have hlast : 1 ≤ l.getLast h := by
    rcases Nat.eq_zero_or_pos (l.getLast h) with hz | hp
    · exact absurd (by rw [List.getLast?_eq_getLast l h, hz]) h0
    · exact hp
  calc 10 ^ (l.length - 1)
      ≤ listVal l.dropLast + 10 ^ l.dropLast.length * l.getLast h := by
        rw [List.length_dropLast]
        have : 10 ^ (l.length - 1) * 1 ≤ 10 ^ (l.length - 1) * l.getLast h :=
          Nat.mul_le_mul_left _ hlast
        omega
    _ = listVal (l.dropLast ++ [l.getLast h]) := by
        rw [listVal_append]
        simp [listVal]
    _ = listVal l := by rw [hdec]

/-- A nonempty list of digits at most 9 whose value reaches the place value
of its most-significant position is canonical. -/
theorem canonical_of_ge (l : List Nat) (hne : l ≠ []) (h9 : ∀ d ∈ l, d ≤ 9)
    (hge : 10 ^ (l.length - 1) ≤ listVal l) : canonical l := by
  refine ⟨h9, hne, fun hlast => ?_⟩
  exfalso
  have hdec : l.dropLast ++ [l.getLast hne] = l := List.dropLast_append_getLast hne
  have hz : l.getLast hne = 0 := by
    have := List.getLast?_eq_getLast l hne
    rw [this] at hlast
    exact (Option.some_inj.mp hlast)
  have hv : listVal l = listVal l.dropLast := by
    conv_lhs => rw [← hdec]
    rw [listVal_append, hz]
    simp [listVal]
  have hlt : listVal l.dropLast < 10 ^ (l.length - 1) := by
    have := listVal_lt l.dropLast (fun d hd => h9 d (List.dropLast_subset l hd))
    rwa [List.length_dropLast] at this
  omega

theorem canonical_ge (l : List Nat) (hc : canonical l) (h0 : l ≠ [0]) :
    10 ^ (l.length - 1) ≤ listVal l := by
  obtain ⟨h9, hne, hlast⟩ := hc
  refine listVal_getLast_ge l hne (fun hz => h0 (hlast hz))

theorem canonical_val_zero (l : List Nat) (hc : canonical l) (hv : listVal l = 0) :
    l = [0] := by
  by_contra h0
  have := canonical_ge l hc h0
  have hpos : 0 < 10 ^ (l.length - 1) := Nat.pos_pow_of_pos _ (by omega)
  omega

theorem listVal_inj_of_length (l1 : List Nat) :
    ∀ l2 : List Nat, l1.length = l2.length → (∀ d ∈ l1, d ≤ 9) → (∀ d ∈ l2, d ≤ 9) →
    listVal l1 = listVal l2 → l1 = l2 := by
  induction l1 with
  | nil =>
    intro l2 hlen _ _ _
    cases l2 with
    | nil => rfl
    | cons d ds => exact absurd hlen (by simp)
  | cons d1 ds1 ih =>
    intro l2 hlen h1 h2 hv
    cases l2 with
    | nil => exact absurd hlen (by simp)
    | cons d2 ds2 =>
      simp only [listVal] at hv
      have hd1 : d1 ≤ 9 := h1 d1 (List.mem_cons_self _ _)
      have hd2 : d2 ≤ 9 := h2 d2 (List.mem_cons_self _ _)
      have hd : d1 = d2 := by omega
      have hvtail : listVal ds1 = listVal ds2 := by omega
      have htail : ds1 = ds2 :=
        ih ds2 (by simpa using hlen)
          (fun e he => h1 e (List.mem_cons_of_mem _ he))
          (fun e he => h2 e (List.mem_cons_of_mem _ he)) hvtail
      rw [hd, htail]

/-- Two canonical digit lists denoting the same number are equal. -/
theorem canonical_inj (l1 l2 : List Nat) (h1 : canonical l1) (h2 : canonical l2)
    (hv : listVal l1 = listVal l2) : l1 = l2 := by
  rcases Nat.eq_zero_or_pos (listVal l1) with hz | hp
  · rw [canonical_val_zero l1 h1 hz, canonical_val_zero l2 h2 (by omega)]
  · have h10 : l1 ≠ [0] := by
      intro h
      rw [h] at hp
      simp [listVal] at hp
    have h20 : l2 ≠ [0] := by
      intro h
      rw [h] at hv
      simp [listVal] at hv
      omega
    have hge1 := canonical_ge l1 h1 h10
    have hge2 := canonical_ge l2 h2 h20
    have hlt1 := listVal_lt l1 h1.1
    have hlt2 := listVal_lt l2 h2.1
    have hne1 : l1.length ≠ 0 := by
      intro h
      rw [List.length_eq_zero.mp h] at hp
      simp [listVal] at hp
    have hne2 : l2.length ≠ 0 := by
      intro h
      rw [List.length_eq_zero.mp h] at hv
      simp [listVal] at hv
      omega
    have hlen : l1.length = l2.length := by
      by_contra hne
      rcases Nat.lt_or_ge l1.length l2.length with hl | hl
      · have : 10 ^ l1.length ≤ 10 ^ (l2.length - 1) :=
          Nat.pow_le_pow_right (by omega) (by omega)
        omega
      · have hl2 : l2.length < l1.length := by omega
        have : 10 ^ l2.length ≤ 10 ^ (l1.length - 1) :=
          Nat.pow_le_pow_right (by omega) (by omega)
        omega
    exact listVal_inj_of_length l1 l2 hlen h1.1 h2.1 hv

/-- The loop of add emits one digit per position of the longer operand and
then at most the flushed carry: the result decomposes as a block of main
digits followed by flushCarry of the final carry, which stays at most 1
when the operand digits are at most 9. -/
theorem addAux_decomp (xs ys : List Nat) (c : Nat) :
    (∀ d ∈ xs, d ≤ 9) → (∀ d ∈ ys, d ≤ 9) → c ≤ 1 →
    ∃ main cf, addAux xs ys c = main ++ flushCarry cf ∧
      main.length = Nat.max xs.length ys.length ∧ cf ≤ 1 := by
  induction xs, ys, c using addAux.induct with
  | case1 c =>
    intro _ _ hc
    exact ⟨[], c, by rw [addAux]; simp, by simp [Nat.max_self], hc⟩
  | case2 x xs c ih =>
    intro hx hy hc
    have hx9 : x ≤ 9 := hx x (List.mem_cons_self _ _)
    obtain ⟨main, cf, heq, hlen, hcf⟩ :=
      ih (fun d hd => hx d (List.mem_cons_of_mem _ hd)) hy (by omega)
    refine ⟨((c + x + 0) % 10) :: main, cf, ?_, ?_, hcf⟩
    · rw [addAux, heq, List.cons_append]
    · rw [List.length_cons, hlen, List.length_cons]
      simp [Nat.max_zero]
  | case3 y ys c ih =>
    intro hx hy hc
    have hy9 : y ≤ 9 := hy y (List.mem_cons_self _ _)
    obtain ⟨main, cf, heq, hlen, hcf⟩ :=
      ih hx (fun d hd => hy d (List.mem_cons_of_mem _ hd)) (by omega)
    refine ⟨((c + 0 + y) % 10) :: main, cf, ?_, ?_, hcf⟩
    · rw [addAux, heq, List.cons_append]
    · rw [List.length_cons, hlen, List.length_cons]
      simp [Nat.zero_max]
  | case4 x xs y ys c ih =>
    intro hx hy hc
    have hx9 : x ≤ 9 := hx x (List.mem_cons_self _ _)
    have hy9 : y ≤ 9 := hy y (List.mem_cons_self _ _)
    obtain ⟨main, cf, heq, hlen, hcf⟩ :=
      ih (fun d hd => hx d (List.mem_cons_of_mem _ hd))
        (fun d hd => hy d (List.mem_cons_of_mem _ hd)) (by omega)
    refine ⟨((c + x + y) % 10) :: main, cf, ?_, ?_, hcf⟩
    · rw [addAux, heq, List.cons_append]
    · rw [List.length_cons, hlen, List.length_cons, List.length_cons, nat_max_succ]

/-! ### Facts about BigInt.add -/

theorem flushCarry_one : flushCarry 1 = [1] := by
  rw [flushCarry_of_pos (by omega)]
  norm_num [flushCarry_zero]

/-- Value correctness of add, for arbitrary stored digit lists. -/
theorem add_val (x y : BigInt) : (x.add y).val = x.val + y.val := by
  show listVal (x.add y).digits = _
  rw [add_eq_addAux, listVal_addAux]
  simp only [BigInt.val]
  omega

theorem add_digits_le (x y : BigInt) : ∀ d ∈ (x.add y).digits, d ≤ 9 := by
  rw [add_eq_addAux]
  exact addAux_digits_le _ _ _

/-- Addition of well-formed values preserves canonical form even though the
source builds the result struct directly rather than through the
constructor. -/
theorem add_wf (x y : BigInt) (hx : wf x) (hy : wf y) : wf (x.add y) := by
  rcases Nat.eq_zero_or_pos (x.val + y.val) with hS | hS
  · have hS' : listVal x.digits + listVal y.digits = 0 := by
      simp only [BigInt.val] at hS
      omega
    have hx0 : x.digits = [0] := canonical_val_zero _ hx (by omega)
    have hy0 : y.digits = [0] := canonical_val_zero _ hy (by omega)
    have hcomp : addAux [0] [0] 0 = [0] := by
      rw [addAux]
      norm_num
      rw [addAux, flushCarry_zero]
    show canonical (x.add y).digits
    rw [add_eq_addAux, hx0, hy0, hcomp]
    decide
  · have hxd := hx.1
    have hyd := hy.1
    obtain ⟨main, cf, heq, hlen, hcf⟩ := addAux_decomp x.digits y.digits 0 hxd hyd (by omega)
    have hxne : x.digits ≠ [] := hx.2.1
    have hlen1 : 1 ≤ x.digits.length := by
      cases hx2 : x.digits with
      | nil => exact absurd hx2 hxne
      | cons d ds => simp [hx2]
    have hmax1 : 1 ≤ Nat.max x.digits.length y.digits.length := by
      have : x.digits.length ≤ Nat.max x.digits.length y.digits.length := Nat.le_max_left _ _
      omega
    have hval : listVal (x.add y).digits = x.val + y.val := by
      rw [add_eq_addAux, listVal_addAux]
      show 0 + listVal x.digits + listVal y.digits = _
      unfold BigInt.val
      omega
    -- the value of the sum reaches the place value of the top main digit
    have hge : 10 ^ (Nat.max x.digits.length y.digits.length - 1) ≤ x.val + y.val := by
      have hchoice : Nat.max x.digits.length y.digits.length = x.digits.length ∨
          Nat.max x.digits.length y.digits.length = y.digits.length := max_choice _ _
      rcases hchoice with hc | hc
      · by_cases hx0 : x.digits = [0]
        · rw [hc, hx0]
          show 1 ≤ x.val + y.val
          omega
        · have := canonical_ge x.digits hx hx0
          rw [hc]
          calc 10 ^ (x.digits.length - 1) ≤ listVal x.digits := this
            _ ≤ x.val + y.val := by simp only [BigInt.val]; omega
      · by_cases hy0 : y.digits = [0]
        · rw [hc, hy0]
          show 1 ≤ x.val + y.val
          omega
        · have := canonical_ge y.digits hy hy0
          rw [hc]
          calc 10 ^ (y.digits.length - 1) ≤ listVal y.digits := this
            _ ≤ x.val + y.val := by simp only [BigInt.val]; omega
    have hD := add_eq_addAux x y
    rcases Nat.le_one_iff_eq_zero_or_eq_one.mp hcf with hcf0 | hcf1
    · -- no final carry: the result is exactly the main block
      have hmain : (x.add y).digits = main := by
        rw [hD, heq, hcf0, flushCarry_zero, List.append_nil]
      apply canonical_of_ge
      · rw [hmain]
        intro hnil
        rw [hnil] at hlen
        simp at hlen
        omega
      · exact add_digits_le x y
      · rw [hmain, hlen]
        rw [hmain] at hval
        omega
    · -- final carry 1: the result ends in the digit 1
      have hmain : (x.add y).digits = main ++ [1] := by
        rw [hD, heq, hcf1, flushCarry_one]
      refine ⟨add_digits_le x y, ?_, ?_⟩
      · rw [hmain]
        simp
      · intro hlast
        rw [hmain, List.getLast?_concat] at hlast
        simp at hlast

theorem bigint_eq_of_digits {x y : BigInt} (h : x.digits = y.digits) : x = y := by
  cases x
  cases y
  simpa using h

theorem addAux_nil (ys : List Nat) : ∀ c, addAux [] ys c = addAux ys [] c := by
  induction ys with
  | nil =>
    intro c
    rfl
  | cons y ys ih =>
    intro c
    rw [addAux, addAux]
    have h1 : c + 0 + y = c + y + 0 := by omega
    rw [h1, ih]

/-- The structural add loop is symmetric in its two digit lists. -/
theorem addAux_comm (xs : List Nat) : ∀ (ys : List Nat) (c : Nat),
    addAux xs ys c = addAux ys xs c := by
  induction xs with
  | nil =>
    intro ys c
    exact addAux_nil ys c
  | cons x xs ih =>
    intro ys c
    cases ys with
    | nil => exact (addAux_nil (x :: xs) c).symm
    | cons y ys =>
      rw [addAux, addAux]
      have harith : c + x + y = c + y + x := by omega
      rw [harith, ih]

theorem add_comm_big (x y : BigInt) : x.add y = y.add x := by
  apply bigint_eq_of_digits
  rw [add_eq_addAux, add_eq_addAux, addAux_comm]


theorem add_zero_ident (x : BigInt) (hx : wf x) : x.add ⟨[0]⟩ = x := by
  apply bigint_eq_of_digits
  apply canonical_inj
  · exact add_wf x ⟨[0]⟩ hx (by decide)
  · exact hx
  · have hv := add_val x ⟨[0]⟩
    simp only [BigInt.val, listVal] at hv
    omega

theorem add_assoc_big (x y z : BigInt) (hx : wf x) (hy : wf y) (hz : wf z) :
    (x.add y).add z = x.add (y.add z) := by
  apply bigint_eq_of_digits
  apply canonical_inj
  · exact add_wf _ _ (add_wf x y hx hy) hz
  · exact add_wf _ _ hx (add_wf y z hy hz)
  · have h1 := add_val (x.add y) z
    have h2 := add_val x y
    have h3 := add_val x (y.add z)
    have h4 := add_val y z
    simp only [BigInt.val] at h1 h2 h3 h4
    omega

/-! ### Facts about stripTrailing, mkCanon and BigInt.new -/

theorem strip_decomp (l : List Nat) :
    ∃ k, l = stripTrailing l ++ List.replicate k 0 := by
  refine ⟨(l.reverse.takeWhile (fun d => d == 0)).reverse.length, ?_⟩
  have htake : ∀ b ∈ (l.reverse.takeWhile (fun d => d == 0)).reverse, b = 0 := by
    intro b hb
    have hmem := List.mem_reverse.mp hb
    have := List.mem_takeWhile_imp hmem
    simpa using this
  have hrep := List.eq_replicate_of_mem htake
  calc l = (l.reverse.takeWhile (fun d => d == 0) ++
        l.reverse.dropWhile (fun d => d == 0)).reverse.reverse.reverse := by
        rw [List.takeWhile_append_dropWhile, List.reverse_reverse, List.reverse_reverse]
    _ = stripTrailing l ++ (l.reverse.takeWhile (fun d => d == 0)).reverse := by
        rw [List.reverse_reverse, List.reverse_append]
        rfl
    _ = stripTrailing l ++ List.replicate _ 0 := by rw [← hrep]

theorem strip_eq_nil_iff (l : List Nat) :
    stripTrailing l = [] ↔ ∀ d ∈ l, d = 0 := by
  unfold stripTrailing
  constructor
  · intro h d hd
    have hnil : l.reverse.dropWhile (fun d => d == 0) = [] := by
      have := congrArg List.reverse h
      rwa [List.reverse_reverse] at this
    have := List.dropWhile_eq_nil_iff.mp hnil d (List.mem_reverse.mpr hd)
    simpa using this
  · intro h
    have hnil : l.reverse.dropWhile (fun d => d == 0) = [] := by
      apply List.dropWhile_eq_nil_iff.mpr
      intro d hd
      have := h d (List.mem_reverse.mp hd)
      simpa using this
    rw [hnil]
    rfl

theorem strip_getLast (l : List Nat) (h : stripTrailing l ≠ []) :
    (stripTrailing l).getLast? ≠ some 0 := by
  have hr : l.reverse.dropWhile (fun d => d == 0) ≠ [] := by
    intro hnil
    apply h
    unfold stripTrailing
    rw [hnil]
    rfl
  have hhead := List.head_dropWhile_not (fun d => d == 0) l.reverse hr
  have hlast : (stripTrailing l).getLast? =
      (l.reverse.dropWhile (fun d => d == 0)).head? := by
    unfold stripTrailing
    exact List.getLast?_reverse _
  rw [hlast, List.head?_eq_head hr]
  intro hcon
  have : (l.reverse.dropWhile (fun d => d == 0)).head hr = 0 := by
    exact Option.some_inj.mp hcon
  rw [this] at hhead
  simp at hhead

theorem strip_mem (l : List Nat) : ∀ d ∈ stripTrailing l, d ∈ l := by
  intro d hd
  have h1 : d ∈ l.reverse.dropWhile (fun d => d == 0) := List.mem_reverse.mp hd
  have h2 : d ∈ l.reverse := (List.dropWhile_sublist _).mem h1
  exact List.mem_reverse.mp h2

theorem mkCanon_digits (l : List Nat) :
    (mkCanon l).digits =
      if (stripTrailing l).length > 0 then stripTrailing l else [0] := rfl

theorem mkCanon_wf (l : List Nat) (h : ∀ d ∈ l, d ≤ 9) : wf (mkCanon l) := by
  show canonical (mkCanon l).digits
  rw [mkCanon_digits]
  by_cases hs : (stripTrailing l).length > 0
  · rw [if_pos hs]
    have hne : stripTrailing l ≠ [] := by
      intro hnil
      rw [hnil] at hs
      simp at hs
    exact ⟨fun d hd => h d (strip_mem l d hd), hne,
      fun hlast => absurd hlast (strip_getLast l hne)⟩
  · rw [if_neg hs]
    decide

theorem mkCanon_val (l : List Nat) : (mkCanon l).val = listVal l := by
  obtain ⟨k, hk⟩ := strip_decomp l
  have hv : listVal l = listVal (stripTrailing l) := by
    conv_lhs => rw [hk]
    rw [listVal_append, listVal_replicate_zero]
    omega
  show listVal (mkCanon l).digits = _
  rw [mkCanon_digits]
  by_cases hs : (stripTrailing l).length > 0
  · rw [if_pos hs, hv]
  · rw [if_neg hs]
    have hnil : stripTrailing l = [] := by
      cases hcase : stripTrailing l with
      | nil => rfl
      | cons a t =>
        rw [hcase] at hs
        simp at hs
    rw [hv, hnil]
    rfl

theorem mkCanon_of_canonical (l : List Nat) (hc : canonical l) : mkCanon l = ⟨l⟩ := by
  by_cases h0 : l = [0]
  · rw [h0]
    rfl
  · have hne : l ≠ [] := hc.2.1
    have hlast : l.getLast? ≠ some 0 := fun hz => h0 (hc.2.2 hz)
    have hrne : l.reverse ≠ [] := by
      intro h
      exact hne (by simpa using congrArg List.reverse h)
    have hstrip : stripTrailing l = l := by
      unfold stripTrailing
      cases hr : l.reverse with
      | nil => exact absurd hr hrne
      | cons a t =>
        have hhead : l.reverse.head? = l.getLast? := List.head?_reverse l
        rw [hr] at hhead
        have ha : a ≠ 0 := by
          intro haz
          apply hlast
          rw [← hhead, haz]
          rfl
        have hpa : (a == 0) = false := by simpa using ha
        rw [List.dropWhile_cons, hpa]
        simp only [Bool.false_eq_true, if_false]
        rw [← hr, List.reverse_reverse]
    apply bigint_eq_of_digits
    rw [mkCanon_digits, hstrip, if_pos]
    cases hl : l with
    | nil => exact absurd hl hne
    | cons a t => exact Nat.succ_pos t.length

theorem new_ok (l : List Nat) (h : ∀ d ∈ l, d ≤ 9) :
    BigInt.new l = Except.ok (mkCanon l) := by
  have hcond : ¬ (l.any (fun d => d > 9) = true) := by
    simp only [List.any_eq_true, decide_eq_true_eq]
    rintro ⟨d, hd, hgt⟩
    have := h d hd
    omega
  rw [BigInt.new, if_neg hcond]

theorem new_abort (l : List Nat) (h : ∃ d ∈ l, 9 < d) :
    BigInt.new l =
      Except.error (Failure.processAbort "only digits 0 through 9 allowed") := by
  have hcond : l.any (fun d => d > 9) = true := by
    simp only [List.any_eq_true, decide_eq_true_eq]
    exact h
  rw [BigInt.new, if_pos hcond]

/-! ### Facts about BigInt.multiply -/

theorem listVal_mulDigitLoop (a : Nat) : ∀ (bs : List Nat) (c : Nat),
    listVal (mulDigitLoop a bs c) = a * listVal bs + c := by
  intro bs
  induction bs with
  | nil =>
    intro c
    rw [mulDigitLoop, listVal_flushCarry]
    simp [listVal]
  | cons b bs ih =>
    intro c
    rw [mulDigitLoop]
    simp only [listVal]
    rw [ih]
    have hmd := Nat.mod_add_div (a * b + c) 10
    have key : ∀ m d v : Nat, m + 10 * d = a * b + c →
        m + 10 * (a * v + d) = a * (b + 10 * v) + c := by
      intro m d v h
      have hsplit : m + 10 * (a * v + d) = (m + 10 * d) + 10 * (a * v) := by ring
      rw [hsplit, h]
      ring
    exact key _ _ _ hmd

theorem mulDigitLoop_digits_le (a : Nat) : ∀ (bs : List Nat) (c : Nat),
    ∀ d ∈ mulDigitLoop a bs c, d ≤ 9 := by
  intro bs
  induction bs with
  | nil =>
    intro c
    rw [mulDigitLoop]
    exact flushCarry_digits_le c
  | cons b bs ih =>
    intro c
    rw [mulDigitLoop]
    intro d hd
    rcases List.mem_cons.mp hd with h1 | h1
    · subst h1
      exact Nat.le_of_lt_succ (Nat.mod_lt _ (by omega))
    · exact ih _ d h1

theorem sdp_val (i a : Nat) (bs : List Nat) :
    listVal (singleDigitProduct i a bs) = 10 ^ i * (a * listVal bs) := by
  unfold singleDigitProduct
  rw [listVal_append, listVal_replicate_zero, List.length_replicate,
    listVal_mulDigitLoop]
  ring

theorem sdp_digits_le (i a : Nat) (bs : List Nat) :
    ∀ d ∈ singleDigitProduct i a bs, d ≤ 9 := by
  unfold singleDigitProduct
  intro d hd
  rcases List.mem_append.mp hd with h1 | h1
  · rw [List.eq_of_mem_replicate h1]
    omega
  · exact mulDigitLoop_digits_le a bs 0 d h1

theorem foldlM_new_ok (ps : List (List Nat)) (hps : ∀ p ∈ ps, ∀ d ∈ p, d ≤ 9) :
    ∀ acc : BigInt,
    (List.foldlM (fun r prod => do
      let b ← BigInt.new prod
      pure (r.add b)) acc ps : Except Failure BigInt) =
      Except.ok (ps.foldl (fun r prod => r.add (mkCanon prod)) acc) := by
  induction ps with
  | nil =>
    intro acc
    rfl
  | cons p ps ih =>
    intro acc
    have hp : ∀ d ∈ p, d ≤ 9 := hps p (List.mem_cons_self _ _)
    rw [List.foldlM_cons, List.foldl_cons, new_ok p hp]
    exact ih (fun q hq => hps q (List.mem_cons_of_mem _ hq)) (acc.add (mkCanon p))

theorem multiply_eq (x y : BigInt) :
    x.multiply y = Except.ok
      ((x.digits.enum.map (fun p => singleDigitProduct p.1 p.2 y.digits)).foldl
        (fun r prod => r.add (mkCanon prod)) ⟨[0]⟩) := by
  have hps : ∀ p ∈ x.digits.enum.map (fun p => singleDigitProduct p.1 p.2 y.digits),
      ∀ d ∈ p, d ≤ 9 := by
    intro p hp
    obtain ⟨q, _, hq⟩ := List.mem_map.mp hp
    rw [← hq]
    exact sdp_digits_le q.1 q.2 y.digits
  have h0 : BigInt.new [] = Except.ok (⟨[0]⟩ : BigInt) := by decide
  unfold BigInt.multiply
  rw [h0]
  exact foldlM_new_ok _ hps ⟨[0]⟩

theorem fold_add_mkCanon (ps : List (List Nat)) (hps : ∀ p ∈ ps, ∀ d ∈ p, d ≤ 9) :
    ∀ acc : BigInt, wf acc →
    wf (ps.foldl (fun r prod => r.add (mkCanon prod)) acc) ∧
    (ps.foldl (fun r prod => r.add (mkCanon prod)) acc).val =
      acc.val + (ps.map listVal).sum := by
  induction ps with
  | nil =>
    intro acc hacc
    exact ⟨hacc, by simp⟩
  | cons p ps ih =>
    intro acc hacc
    have hp : ∀ d ∈ p, d ≤ 9 := hps p (List.mem_cons_self _ _)
    have hacc2 : wf (acc.add (mkCanon p)) := add_wf _ _ hacc (mkCanon_wf p hp)
    obtain ⟨hw, hv⟩ := ih (fun q hq => hps q (List.mem_cons_of_mem _ hq))
      (acc.add (mkCanon p)) hacc2
    constructor
    · rw [List.foldl_cons]
      exact hw
    · rw [List.foldl_cons, hv, add_val, mkCanon_val, List.map_cons, List.sum_cons]
      omega

theorem enum_prods_sum (bs : List Nat) : ∀ (xs : List Nat) (n : Nat),
    (((List.enumFrom n xs).map fun p => singleDigitProduct p.1 p.2 bs).map
      listVal).sum = 10 ^ n * (listVal xs * listVal bs) := by
  intro xs
  induction xs with
  | nil =>
    intro n
    simp [List.enumFrom, listVal]
  | cons x xs ih =>
    intro n
    simp only [List.enumFrom, List.map_cons, List.sum_cons]
    rw [ih (n + 1), sdp_val]
    simp only [listVal]
    rw [pow_succ]
    ring

/-- Multiplication always succeeds and returns the product value in a
canonical, well-formed result, for arbitrary stored digit lists. -/
theorem multiply_ok (x y : BigInt) :
    ∃ r, x.multiply y = Except.ok r ∧ wf r ∧ r.val = x.val * y.val := by
  refine ⟨_, multiply_eq x y, ?_⟩
  have hps : ∀ p ∈ x.digits.enum.map (fun p => singleDigitProduct p.1 p.2 y.digits),
      ∀ d ∈ p, d ≤ 9 := by
    intro p hp
    obtain ⟨q, _, hq⟩ := List.mem_map.mp hp
    rw [← hq]
    exact sdp_digits_le q.1 q.2 y.digits
  obtain ⟨hw, hv⟩ := fold_add_mkCanon _ hps ⟨[0]⟩ (by decide)
  refine ⟨hw, ?_⟩
  rw [hv]
  have hsum : ((x.digits.enum.map
      (fun p => singleDigitProduct p.1 p.2 y.digits)).map listVal).sum =
      10 ^ 0 * (listVal x.digits * listVal y.digits) := by
    have henum : x.digits.enum = List.enumFrom 0 x.digits := rfl
    rw [henum]
    exact enum_prods_sum y.digits x.digits 0
  rw [hsum]
  show listVal [0] + 1 * (listVal x.digits * listVal y.digits) = _
  simp only [listVal, BigInt.val]
  have h1 : (1 : Nat) * (listVal x.digits * listVal y.digits) =
      listVal x.digits * listVal y.digits := one_mul _
  omega

/-! ### The checked u8 variants never hit an overflow on well-formed input -/

theorem getD_le_nine (l : List Nat) (h : ∀ d ∈ l, d ≤ 9) (i : Nat) :
    l.getD i 0 ≤ 9 := by
  rcases Nat.lt_or_ge i l.length with hi | hi
  · rw [List.getD_eq_getElem _ _ hi]
    exact h _ (List.getElem_mem hi)
  · rw [List.getD_eq_default _ _ hi]
    omega

theorem addLoopChk_eq (a b : List Nat) (h9a : ∀ d ∈ a, d ≤ 9)
    (h9b : ∀ d ∈ b, d ≤ 9) :
    ∀ (k i c : Nat), Nat.max a.length b.length - i ≤ k → c ≤ 1 →
    addLoopChk a b i (Nat.max a.length b.length) c =
      some (addLoop a b i (Nat.max a.length b.length) c) := by
  intro k
  induction k with
  | zero =>
    intro i c hk hc
    have h : ¬ i < Nat.max a.length b.length := by omega
    rw [addLoopChk, addLoop]
    simp only [h, if_false]
  | succ k ih =>
    intro i c hk hc
    by_cases h : i < Nat.max a.length b.length
    · have hga := getD_le_nine a h9a i
      have hgb := getD_le_nine b h9b i
      have h1 : u8chk (c + a.getD i 0) = some (c + a.getD i 0) := by
        rw [u8chk, if_pos (by omega)]
      have h2 : u8chk (c + a.getD i 0 + b.getD i 0) =
          some (c + a.getD i 0 + b.getD i 0) := by
        rw [u8chk, if_pos (by omega)]
      have h3 := ih (i + 1) ((c + a.getD i 0 + b.getD i 0) / 10) (by omega) (by omega)
      rw [addLoopChk, addLoop]
      simp only [h, if_true, h1, h2, h3]
    · rw [addLoopChk, addLoop]
      simp only [h, if_false]

theorem addChk_eq (x y : BigInt) (hx : ∀ d ∈ x.digits, d ≤ 9)
    (hy : ∀ d ∈ y.digits, d ≤ 9) : x.addChk y = some (x.add y) := by
  rw [BigInt.addChk,
    addLoopChk_eq x.digits y.digits hx hy _ 0 0 (Nat.le_refl _) (by omega)]
  rfl

theorem mulDigitLoopChk_eq (a : Nat) (ha : a ≤ 9) : ∀ (bs : List Nat) (c : Nat),
    (∀ d ∈ bs, d ≤ 9) → c ≤ 8 →
    mulDigitLoopChk a bs c = some (mulDigitLoop a bs c) := by
  intro bs
  induction bs with
  | nil =>
    intro c _ _
    rfl
  | cons b bs ih =>
    intro c hbs hc
    have hb : b ≤ 9 := hbs b (List.mem_cons_self _ _)
    have hab : a * b ≤ 81 := le_trans (Nat.mul_le_mul ha hb) (by omega)
    have h1 : u8chk (a * b) = some (a * b) := by
      rw [u8chk, if_pos (by omega)]
    have h2 : u8chk (a * b + c) = some (a * b + c) := by
      rw [u8chk, if_pos (by omega)]
    have h3 := ih ((a * b + c) / 10) (fun d hd => hbs d (List.mem_cons_of_mem _ hd))
      (by omega)
    rw [mulDigitLoopChk, mulDigitLoop]
    simp only [h1, h2, h3]

theorem enumFrom_snd_mem (l : List Nat) :
    ∀ (n : Nat) (p : Nat × Nat), p ∈ List.enumFrom n l → p.2 ∈ l := by
  induction l with
  | nil =>
    intro n p hp
    simp [List.enumFrom] at hp
  | cons x xs ih =>
    intro n p hp
    rw [List.enumFrom] at hp
    rcases List.mem_cons.mp hp with h | h
    · subst h
      exact List.mem_cons_self _ _
    · exact List.mem_cons_of_mem _ (ih (n + 1) p h)

theorem sdProductsChk_eq (bs : List Nat) (hbs : ∀ d ∈ bs, d ≤ 9) :
    ∀ (pairs : List (Nat × Nat)), (∀ p ∈ pairs, p.2 ≤ 9) →
    sdProductsChk pairs bs =
      some (pairs.map (fun p => singleDigitProduct p.1 p.2 bs)) := by
  intro pairs
  induction pairs with
  | nil =>
    intro _
    rfl
  | cons p ps ih =>
    intro hp
    have h1 := mulDigitLoopChk_eq p.2 (hp p (List.mem_cons_self _ _)) bs 0 hbs
      (by omega)
    have h2 := ih (fun q hq => hp q (List.mem_cons_of_mem _ hq))
    rw [sdProductsChk]
    simp only [h1, h2, List.map_cons, singleDigitProduct]

theorem foldChk_eq (ps : List (List Nat)) (hps : ∀ p ∈ ps, ∀ d ∈ p, d ≤ 9) :
    ∀ acc : BigInt, (∀ d ∈ acc.digits, d ≤ 9) →
    foldChk ps acc = some (ps.foldl (fun r prod => r.add (mkCanon prod)) acc) := by
  induction ps with
  | nil =>
    intro acc _
    rfl
  | cons p ps ih =>
    intro acc hacc
    have hp : ∀ d ∈ p, d ≤ 9 := hps p (List.mem_cons_self _ _)
    have h1 : (BigInt.new p).toOption = some (mkCanon p) := by
      rw [new_ok p hp]
      rfl
    have hmk : ∀ d ∈ (mkCanon p).digits, d ≤ 9 := (mkCanon_wf p hp).1
    have h2 := addChk_eq acc (mkCanon p) hacc hmk
    have h3 := ih (fun q hq => hps q (List.mem_cons_of_mem _ hq))
      (acc.add (mkCanon p)) (add_digits_le acc (mkCanon p))
    rw [foldChk]
    simp only [h1, h2, h3, List.foldl_cons]

theorem multiplyChk_eq (x y : BigInt) (hx : ∀ d ∈ x.digits, d ≤ 9)
    (hy : ∀ d ∈ y.digits, d ≤ 9) :
    x.multiplyChk y = some
      ((x.digits.enum.map (fun p => singleDigitProduct p.1 p.2 y.digits)).foldl
        (fun r prod => r.add (mkCanon prod)) ⟨[0]⟩) := by
  have hpairs : ∀ p ∈ x.digits.enum, p.2 ≤ 9 := fun p hp =>
    hx p.2 (enumFrom_snd_mem x.digits 0 p hp)
  have h1 := sdProductsChk_eq y.digits hy x.digits.enum hpairs
  have h0 : (BigInt.new []).toOption = some (⟨[0]⟩ : BigInt) := by decide
  have hps : ∀ p ∈ x.digits.enum.map (fun p => singleDigitProduct p.1 p.2 y.digits),
      ∀ d ∈ p, d ≤ 9 := by
    intro p hp
    obtain ⟨q, _, hq⟩ := List.mem_map.mp hp
    rw [← hq]
    exact sdp_digits_le q.1 q.2 y.digits
  have h2 := foldChk_eq _ hps ⟨[0]⟩ (by decide)
  rw [BigInt.multiplyChk]
  simp only [h1, h0, h2]

/-! ### The canonical decimal digit sequence of a native natural number -/


theorem natToDigits_canonical (n : Nat) : canonical (natToDigits n) := by
  by_cases h0 : n = 0
  · rw [natToDigits, if_pos h0]
    decide
  · rw [natToDigits, if_neg h0]
    have hne : Nat.digits 10 n ≠ [] := Nat.digits_ne_nil_iff_ne_zero.mpr h0
    refine ⟨?_, hne, ?_⟩
    · intro d hd
      have := Nat.digits_lt_base (by omega) hd
      omega
    · intro hlast
      exfalso
      have hgl := Nat.getLast_digit_ne_zero 10 h0
      rw [List.getLast?_eq_getLast _ hne] at hlast
      exact hgl (Option.some_inj.mp hlast)

theorem mul_concrete_example :
    (BigInt.mk [2, 1]).multiply ⟨[5, 4, 3]⟩ = Except.ok ⟨[0, 4, 1, 4]⟩ := by
  have e1 : (BigInt.mk [2, 1]).digits.enum = [(0, 2), (1, 1)] := rfl
  have e2 : singleDigitProduct 0 2 [5, 4, 3] = [0, 9, 6] := by
    simp [singleDigitProduct, mulDigitLoop, flushCarry]
  have e3 : singleDigitProduct 1 1 [5, 4, 3] = [0, 5, 4, 3] := by
    simp [singleDigitProduct, mulDigitLoop, flushCarry]
  have e4 : mkCanon [0, 9, 6] = ⟨[0, 9, 6]⟩ := by decide
  have e5 : mkCanon [0, 5, 4, 3] = ⟨[0, 5, 4, 3]⟩ := by decide
  have e6 : (BigInt.mk [0]).add ⟨[0, 9, 6]⟩ = ⟨[0, 9, 6]⟩ := by
    apply bigint_eq_of_digits
    show addLoop [0] [0, 9, 6] 0 3 0 = [0, 9, 6]
    simp [addLoop, flushCarry]
  have e7 : (BigInt.mk [0, 9, 6]).add ⟨[0, 5, 4, 3]⟩ = ⟨[0, 4, 1, 4]⟩ := by
    apply bigint_eq_of_digits
    show addLoop [0, 9, 6] [0, 5, 4, 3] 0 4 0 = [0, 4, 1, 4]
    simp [addLoop, flushCarry]
  rw [multiply_eq, e1]
  simp only [List.map_cons, List.map_nil, List.foldl_cons, List.foldl_nil]
  simp only [e2, e3, e4, e5, e6, e7]

/-! ### The claims -/

/-- C1: for all well-formed BigInt values a and b, the little-endian
base-10 number denoted by the digits of add(a, b) equals the sum of the
numbers denoted by a and b; concretely, add of from_digits [5,2] and
from_digits [8,9] yields digits [3,2,1], and add of from_digits [1,3,0]
and from_digits [7,8,9,1] (canonicalized to [1,3] and [7,8,9,1]) yields
digits [8,1,0,2]. -/
theorem C1_add_value_correct (a b : BigInt) (ha : wf a) (hb : wf b) :
    (a.add b).val = a.val + b.val ∧
    (∃ x y : BigInt, BigInt.new [5, 2] = Except.ok x ∧
      BigInt.new [8, 9] = Except.ok y ∧ (x.add y).digits = [3, 2, 1]) ∧
    (∃ x y : BigInt, BigInt.new [1, 3, 0] = Except.ok x ∧ x.digits = [1, 3] ∧
      BigInt.new [7, 8, 9, 1] = Except.ok y ∧ y.digits = [7, 8, 9, 1] ∧
      (x.add y).digits = [8, 1, 0, 2]) := by
  refine ⟨add_val a b, ⟨⟨[5, 2]⟩, ⟨[8, 9]⟩, by decide, by decide, ?_⟩,
    ⟨⟨[1, 3]⟩, ⟨[7, 8, 9, 1]⟩, by decide, rfl, by decide, rfl, ?_⟩⟩
  · show addLoop [5, 2] [8, 9] 0 2 0 = [3, 2, 1]
    simp [addLoop, flushCarry]
  · show addLoop [1, 3] [7, 8, 9, 1] 0 4 0 = [8, 1, 0, 2]
    simp [addLoop, flushCarry]

/-- C1 witness at the concrete well-formed inputs 25 and 98. -/
theorem C1_witness :
    ((BigInt.mk [5, 2]).add ⟨[8, 9]⟩).val =
      (BigInt.mk [5, 2]).val + (BigInt.mk [8, 9]).val :=
  (C1_add_value_correct ⟨[5, 2]⟩ ⟨[8, 9]⟩ (by decide) (by decide)).1

/-- C2: for all well-formed BigInt values a and b, multiply(a, b) succeeds
and the number denoted by its digits is the product of the numbers denoted
by a and b; the result is computed as the fold of add over the per-digit
partial products of a against b, each shifted left by its position,
starting from the zero value; concretely multiply of from_digits [2,1] and
from_digits [5,4,3] yields digits [0,4,1,4]. -/
theorem C2_multiply_value_correct (a b : BigInt) (ha : wf a) (hb : wf b) :
    (∃ r, a.multiply b = Except.ok r ∧ r.val = a.val * b.val) ∧
    a.multiply b = Except.ok
      ((a.digits.enum.map (fun p => singleDigitProduct p.1 p.2 b.digits)).foldl
        (fun r prod => r.add (mkCanon prod)) ⟨[0]⟩) ∧
    (∃ x y : BigInt, BigInt.new [2, 1] = Except.ok x ∧
      BigInt.new [5, 4, 3] = Except.ok y ∧
      x.multiply y = Except.ok ⟨[0, 4, 1, 4]⟩) := by
  refine ⟨?_, multiply_eq a b, ⟨⟨[2, 1]⟩, ⟨[5, 4, 3]⟩, by decide, by decide,
    mul_concrete_example⟩⟩
  obtain ⟨r, hr, _, hv⟩ := multiply_ok a b
  exact ⟨r, hr, hv⟩

/-- C2 witness at the concrete well-formed inputs 12 and 345. -/
theorem C2_witness :
    ∃ r, (BigInt.mk [2, 1]).multiply ⟨[5, 4, 3]⟩ = Except.ok r ∧
      r.val = (BigInt.mk [2, 1]).val * (BigInt.mk [5, 4, 3]).val :=
  (C2_multiply_value_correct ⟨[2, 1]⟩ ⟨[5, 4, 3]⟩ (by decide) (by decide)).1

/-- C3: every BigInt produced by the public operations is canonical: the
digits are in [0,9], the sequence is nonempty, and there is no trailing
most-significant zero except for the zero value [0]; this holds for the
results of add and multiply even though add builds its result directly
rather than through the constructor. -/
theorem C3_canonical_invariant :
    (∀ (l : List Nat) (b : BigInt), BigInt.new l = Except.ok b → wf b) ∧
    (∀ a b : BigInt, wf a → wf b → wf (a.add b)) ∧
    (∀ (a b r : BigInt), wf a → wf b → a.multiply b = Except.ok r → wf r) := by
  refine ⟨?_, add_wf, ?_⟩
  · intro l b h
    unfold BigInt.new at h
    split at h
    · exact Except.noConfusion h
    · next h9 =>
      have hb := Except.ok.inj h
      rw [← hb]
      apply mkCanon_wf
      simp only [List.any_eq_true, decide_eq_true_eq] at h9
      push_neg at h9
      exact h9
  · intro a b r _ _ h
    obtain ⟨r2, hr2, hw, _⟩ := multiply_ok a b
    rw [hr2] at h
    rw [← Except.ok.inj h]
    exact hw

/-- C3 witness: the add of two concrete well-formed values is well-formed. -/
theorem C3_witness : wf ((BigInt.mk [5]).add ⟨[7]⟩) :=
  C3_canonical_invariant.2.1 ⟨[5]⟩ ⟨[7]⟩ (by decide) (by decide)

/-- C4 counterexample: on the out-of-range input [7,8,9,10] the
constructor fails by aborting the process (the Rust panic), not by
returning a recoverable InvalidDigit error value. -/
theorem C4_counterexample :
    BigInt.new [7, 8, 9, 10] =
      Except.error (Failure.processAbort "only digits 0 through 9 allowed") ∧
    BigInt.new [7, 8, 9, 10] ≠
      Except.error (Failure.recoverable ErrorKind.invalidDigit) := by
  constructor
  · rfl
  · intro h
    have := Except.error.inj h
    exact Failure.noConfusion this

/-- C4 amended: the constructor fails, by aborting the process (the Rust
panic), if and only if the supplied sequence contains an element outside
[0,9]; on every all-in-range sequence it succeeds and returns a value;
it never surfaces a recoverable error value. -/
theorem C4_new_abort_iff (l : List Nat) :
    ((∃ m, BigInt.new l = Except.error (Failure.processAbort m)) ↔
      ∃ d ∈ l, 9 < d) ∧
    ((∀ d ∈ l, d ≤ 9) → ∃ b, BigInt.new l = Except.ok b) ∧
    (∀ e, BigInt.new l ≠ Except.error (Failure.recoverable e)) := by
  by_cases hall : ∀ d ∈ l, d ≤ 9
  · refine ⟨⟨?_, ?_⟩, fun _ => ⟨mkCanon l, new_ok l hall⟩, ?_⟩
    · rintro ⟨m, hm⟩
      rw [new_ok l hall] at hm
      exact Except.noConfusion hm
    · rintro ⟨d, hd, h9⟩
      exact absurd (hall d hd) (by omega)
    · intro e h
      rw [new_ok l hall] at h
      exact Except.noConfusion h
  · push_neg at hall
    obtain ⟨d, hd, h9⟩ := hall
    have hex : ∃ d ∈ l, 9 < d := ⟨d, hd, by omega⟩
    refine ⟨⟨fun _ => hex, ?_⟩, ?_, ?_⟩
    · intro _
      exact ⟨_, new_abort l hex⟩
    · intro h
      exact absurd (h d hd) (by omega)
    · intro e h
      rw [new_abort l hex] at h
      exact Failure.noConfusion (Except.error.inj h)

/-- C4 witness: the amended claim applied at an in-range and at an
out-of-range concrete sequence. -/
theorem C4_witness :
    (∃ b, BigInt.new [5, 2] = Except.ok b) ∧
    (∃ m, BigInt.new [7, 8, 9, 10] = Except.error (Failure.processAbort m)) :=
  ⟨(C4_new_abort_iff [5, 2]).2.1 (by decide),
    (C4_new_abort_iff [7, 8, 9, 10]).1.mpr (by decide)⟩

/-- C5: on well-formed operands, add and multiply are total: the checked
variants, in which every intermediate u8 operation fails if it would
exceed 255 and every constructor call may abort on an out-of-range digit,
succeed and return exactly the results of the unchecked functions. -/
theorem C5_total_no_overflow (a b : BigInt) (ha : wf a) (hb : wf b) :
    a.addChk b = some (a.add b) ∧
    ∃ r, a.multiply b = Except.ok r ∧ a.multiplyChk b = some r := by
  exact ⟨addChk_eq a b ha.1 hb.1,
    ⟨_, multiply_eq a b, multiplyChk_eq a b ha.1 hb.1⟩⟩

/-- C5 witness at the concrete well-formed inputs 25 and 98. -/
theorem C5_witness :
    (BigInt.mk [5, 2]).addChk ⟨[8, 9]⟩ = some ((BigInt.mk [5, 2]).add ⟨[8, 9]⟩) :=
  (C5_total_no_overflow ⟨[5, 2]⟩ ⟨[8, 9]⟩ (by decide) (by decide)).1

/-- C6: on every in-range digit sequence the constructor strips all
trailing most-significant zeros; a sequence of zeros canonicalizes to [0];
concretely [7,8,9,0,0,0] yields [7,8,9] and [0,0,0] yields [0]. -/
theorem C6_strips_trailing_zeros (l : List Nat) (h : ∀ d ∈ l, d ≤ 9) :
    (∃ b, BigInt.new l = Except.ok b ∧
      ((∀ d ∈ l, d = 0) → b.digits = [0]) ∧
      ((∃ d ∈ l, d ≠ 0) →
        ∃ k, l = b.digits ++ List.replicate k 0 ∧ b.digits.getLast? ≠ some 0)) ∧
    BigInt.new [7, 8, 9, 0, 0, 0] = Except.ok ⟨[7, 8, 9]⟩ ∧
    BigInt.new [0, 0, 0] = Except.ok ⟨[0]⟩ := by
  refine ⟨⟨mkCanon l, new_ok l h, ?_, ?_⟩, by decide, by decide⟩
  · intro hz
    have hnil : stripTrailing l = [] := (strip_eq_nil_iff l).mpr hz
    rw [mkCanon_digits, hnil]
    rfl
  · rintro ⟨d, hd, hdz⟩
    have hs : stripTrailing l ≠ [] := by
      intro hnil
      exact hdz ((strip_eq_nil_iff l).mp hnil d hd)
    have hlen : (stripTrailing l).length > 0 := List.length_pos.mpr hs
    rw [mkCanon_digits, if_pos hlen]
    obtain ⟨k, hk⟩ := strip_decomp l
    exact ⟨k, hk, strip_getLast l hs⟩

/-- C6 witness: the claim applied at the concrete sequence [7,8,9,0,0,0]. -/
theorem C6_witness : BigInt.new [7, 8, 9, 0, 0, 0] = Except.ok ⟨[7, 8, 9]⟩ :=
  (C6_strips_trailing_zeros [7, 8, 9, 0, 0, 0] (by decide)).2.1

/-- C7: for every n representable in an unsigned 64-bit type, building a
BigInt from the canonical least-significant-first decimal digit sequence
of n succeeds and reading the digits back reproduces that sequence. -/
theorem C7_roundtrip (n : Nat) (h : n < 2 ^ 64) :
    ∃ b, BigInt.new (natToDigits n) = Except.ok b ∧ b.digits = natToDigits n := by
  have hc := natToDigits_canonical n
  refine ⟨mkCanon (natToDigits n), new_ok _ hc.1, ?_⟩
  rw [mkCanon_of_canonical _ hc]

/-- C7 witness at the concrete value 314. -/
theorem C7_witness :
    ∃ b, BigInt.new (natToDigits 314) = Except.ok b ∧
      b.digits = natToDigits 314 :=
  C7_roundtrip 314 (by norm_num)

/-- C8: over well-formed values add is commutative and associative, and
the zero value built by from_digits [0] is a right identity. -/
theorem C8_add_algebra (a b c : BigInt) (ha : wf a) (hb : wf b) (hc : wf c) :
    a.add b = b.add a ∧
    (a.add b).add c = a.add (b.add c) ∧
    (∀ z, BigInt.new [0] = Except.ok z → a.add z = a) := by
  refine ⟨add_comm_big a b, add_assoc_big a b c ha hb hc, ?_⟩
  intro z hz
  have h0 : BigInt.new [0] = Except.ok (⟨[0]⟩ : BigInt) := by decide
  rw [h0] at hz
  rw [← Except.ok.inj hz]
  exact add_zero_ident a ha

/-- C8 witness at concrete well-formed inputs. -/
theorem C8_witness :
    (BigInt.mk [5, 2]).add ⟨[8, 9]⟩ = (BigInt.mk [8, 9]).add ⟨[5, 2]⟩ :=
  (C8_add_algebra ⟨[5, 2]⟩ ⟨[8, 9]⟩ ⟨[3]⟩ (by decide) (by decide) (by decide)).1

/-- C9: multiplying any well-formed BigInt by the zero value [0] yields
the zero value, on either side. -/
theorem C9_multiply_zero (a : BigInt) (ha : wf a) :
    ∀ z, BigInt.new [0] = Except.ok z →
      a.multiply z = Except.ok z ∧ z.multiply a = Except.ok z := by
  intro z hz
  have h0 : BigInt.new [0] = Except.ok (⟨[0]⟩ : BigInt) := by decide
  rw [h0] at hz
  rw [← Except.ok.inj hz]
  constructor
  · obtain ⟨r, hr, hwr, hvr⟩ := multiply_ok a ⟨[0]⟩
    have hval0 : r.val = 0 := by
      rw [hvr]
      show a.val * listVal [0] = 0
      simp [listVal]
    have hr0 : r.digits = [0] := canonical_val_zero _ hwr hval0
    rwa [bigint_eq_of_digits hr0] at hr
  · obtain ⟨r, hr, hwr, hvr⟩ := multiply_ok ⟨[0]⟩ a
    have hval0 : r.val = 0 := by
      rw [hvr]
      show listVal [0] * a.val = 0
      simp [listVal]
    have hr0 : r.digits = [0] := canonical_val_zero _ hwr hval0
    rwa [bigint_eq_of_digits hr0] at hr

/-- C9 witness at the concrete well-formed input 25. -/
theorem C9_witness :
    (BigInt.mk [5, 2]).multiply ⟨[0]⟩ = Except.ok ⟨[0]⟩ ∧
    (BigInt.mk [0]).multiply ⟨[5, 2]⟩ = Except.ok ⟨[0]⟩ :=
  C9_multiply_zero ⟨[5, 2]⟩ (by decide) ⟨[0]⟩ (by decide)

/-- C10: constructing a BigInt from the empty digit sequence succeeds and
yields the canonical zero value with digit sequence [0]. -/
theorem C10_empty_input :
    BigInt.new [] = Except.ok ⟨[0]⟩ ∧ wf ⟨[0]⟩ := by
  decide
